import Mathlib

/-!
Shallow embedding of the entity-resolution core of the AI-Database-Analyst
server (src/server.js): the per-category fuzzy-index caches, the
ambiguity-aware resolver `resolveTerm`, the warm-up routine
`initAllCaches`, and the context-building loop of the `/api/query`
handler. Fuzzy-match scores are modelled as rationals; a Fuse.js index is
modelled abstractly as its document snapshot together with a search
function whose results are items of that snapshot (the Fuse contract).
-/

/-- Row of `dim_instructor` as selected at warm-up
(`SELECT first_name, last_name, full_name FROM dim_instructor`). -/
structure InstructorRow where
  first_name : String
  last_name : String
  full_name : String
deriving DecidableEq, Repr

/-- Row of `dim_domain` as selected at warm-up. -/
structure DomainRow where
  domain_name : String
deriving DecidableEq, Repr

/-- Row of `dim_class` as selected at warm-up. -/
structure ClassRow where
  class_name : String
deriving DecidableEq, Repr

/-- Row of `dim_topic` as selected at warm-up. -/
structure TopicRow where
  topic_code : String
deriving DecidableEq, Repr

/-- The four entity categories the resolver queries, in the string-tag
form used by `resolveTerm` (`"instructor"`, `"domain"`, `"class"`,
`"topic"`). -/
inductive Category where
  | instructor
  | domain
  | class_
  | topic
deriving DecidableEq, Repr

/-- Abstract model of a built Fuse.js index over documents of type `α`:
the snapshot of documents it was built from, and the search function
returning scored results. `search_mem` is the Fuse contract that every
search result is one of the indexed documents (`r.item` comes from the
collection). Scores are rationals in place of floats. -/
structure FuseIndex (α : Type) where
  docs : List α
  searchFn : String → List (α × ℚ)
  search_mem : ∀ t p, p ∈ searchFn t → p.1 ∈ docs

/-- A single scored match as assembled by `resolveTerm`:
`{ category: type, value: r.item[field], score: r.score }`. -/
structure MatchCandidate where
  category : Category
  value : String
  score : ℚ
deriving DecidableEq, Repr

/-- The module-level `caches` object: one optional Fuse index per
category (`null` before a successful load). -/
structure Caches where
  instructors : Option (FuseIndex InstructorRow)
  domains : Option (FuseIndex DomainRow)
  classes : Option (FuseIndex ClassRow)
  topics : Option (FuseIndex TopicRow)

/-- The caches object before any load has completed: all four `null`. -/
def emptyCaches : Caches := ⟨none, none, none, none⟩

/-- The absolute quality floor of `resolveTerm`
(`allMatches.filter(m => m.score < 0.4)`). -/
def qualityFloor : ℚ := 0.4

/-- The ambiguity margin of `resolveTerm`
(`const threshold = bestScore + 0.05`). -/
def ambiguityMargin : ℚ := 0.05

/-- The candidate cap of `resolveTerm` (`topCandidates.slice(0, 5)`). -/
def maxCandidates : Nat := 5

/-- The inner `collect(fuse, type, field)` helper of `resolveTerm`:
skip a `null` cache, otherwise push one candidate per search result,
tagged with the category and carrying `r.item[field]` as value. -/
def collect {α : Type} (fuse : Option (FuseIndex α)) (cat : Category)
    (field : α → String) (term : String) : List MatchCandidate :=
  match fuse with
  | none => []
  | some f => (f.searchFn term).map
      (fun r => { category := cat, value := field r.1, score := r.2 })

/-- The `allMatches` list of `resolveTerm` right after the four
`collect` calls, in their source order: instructors (value
`full_name`), domains (`domain_name`), classes (`class_name`), topics
(`topic_code`). -/
def allMatchesList (caches : Caches) (term : String) : List MatchCandidate :=
  collect caches.instructors Category.instructor (fun r => r.full_name) term ++
  collect caches.domains Category.domain (fun r => r.domain_name) term ++
  collect caches.classes Category.class_ (fun r => r.class_name) term ++
  collect caches.topics Category.topic (fun r => r.topic_code) term

/-- The matches surviving the quality floor
(`allMatches.filter(m => m.score < 0.4)`), still in discovery order. -/
def survivingMatches (caches : Caches) (term : String) : List MatchCandidate :=
  (allMatchesList caches term).filter (fun m => decide (m.score < qualityFloor))

/-- Candidate comparison used by the `sort((a, b) => a.score - b.score)`
step: ascending by score. -/
def scoreLE (a b : MatchCandidate) : Prop := a.score ≤ b.score

instance : DecidableRel scoreLE :=
  fun a b => inferInstanceAs (Decidable (a.score ≤ b.score))

instance : IsTotal MatchCandidate scoreLE :=
  ⟨fun a b => le_total a.score b.score⟩

instance : IsTrans MatchCandidate scoreLE :=
  ⟨fun _ _ _ h1 h2 => le_trans h1 h2⟩

/-- The surviving matches after the ascending stable sort. JavaScript
`Array.prototype.sort` has been specified stable since ES2019, which
insertion sort with a non-strict comparison models exactly. -/
def sortedSurvivors (caches : Caches) (term : String) : List MatchCandidate :=
  List.insertionSort scoreLE (survivingMatches caches term)

/-- The `topCandidates` list of `resolveTerm`: if nothing survived,
nothing (the early `return []`); otherwise every sorted survivor whose
score is within `bestScore + 0.05`. -/
def topCandidates (caches : Caches) (term : String) : List MatchCandidate :=
  match sortedSurvivors caches term with
  | [] => []
  | best :: _ =>
      (sortedSurvivors caches term).filter
        (fun m => decide (m.score ≤ best.score + ambiguityMargin))

/-- `resolveTerm(term)`: the top candidates truncated to at most 5
(`topCandidates.slice(0, 5)`). The empty list is the `Unresolved`
outcome. -/
def resolveTerm (caches : Caches) (term : String) : List MatchCandidate :=
  (topCandidates caches term).take maxCandidates

/-- The directive pushed for a uniquely resolved term
(`candidates.length === 1`), dispatching on the category string. -/
def singleDirective (m : MatchCandidate) : String :=
  match m.category with
  | Category.instructor =>
      "User means Instructor \x27" ++ m.value ++ "\x27. Filter by di.full_name = \x27" ++ m.value ++ "\x27"
  | Category.domain =>
      "User means Domain \x27" ++ m.value ++ "\x27. Filter by dd.domain_name = \x27" ++ m.value ++ "\x27"
  | Category.class_ =>
      "User means Class \x27" ++ m.value ++ "\x27. Filter by dc.class_name = \x27" ++ m.value ++ "\x27"
  | Category.topic =>
      "User means Topic \x27" ++ m.value ++ "\x27. Filter by dt.topic_code = \x27" ++ m.value ++ "\x27"

/-- The quoted candidate values (`candidates.map(c => ...)`) joined for
an ambiguous directive. -/
def quotedValues (cs : List MatchCandidate) : List String :=
  cs.map (fun c => "\x27" ++ c.value ++ "\x27")

/-- The `names` string of the ambiguous branch (`join(", ")`). -/
def ambiguousNames (cs : List MatchCandidate) : String :=
  String.intercalate ", " (quotedValues cs)

/-- The directive pushed for an ambiguous term
(`candidates.length > 1`). -/
def ambiguousDirective (term : String) (cs : List MatchCandidate) : String :=
  "The term \x27" ++ term ++ "\x27 is ambiguous and matches multiple entities: " ++
    ambiguousNames cs ++ ". " ++
    "Filter by checking if the name/title is IN (" ++ ambiguousNames cs ++
    ") OR matches the partial term."

/-- The directives one resolved term contributes to `contextMessages`:
none when unresolved, one equality directive when unique, one ambiguous
directive otherwise. -/
def emitForTerm (term : String) (cs : List MatchCandidate) : List String :=
  match cs with
  | [] => []
  | [m] => [singleDirective m]
  | _ => [ambiguousDirective term cs]

/-- The `contextMessages` accumulation loop of the `/api/query` handler
over the extracted terms and their resolution results, in input order. -/
def buildContext (entries : List (String × List MatchCandidate)) : List String :=
  (entries.map (fun e => emitForTerm e.1 e.2)).flatten

/-- Outcome of the four warm-up queries against the backing store: a
query of a category either returns its rows or throws. -/
structure LoadResults where
  instructors : Except Unit (List InstructorRow)
  domains : Except Unit (List DomainRow)
  classes : Except Unit (List ClassRow)
  topics : Except Unit (List TopicRow)

/-- The four `new Fuse(rows, options)` constructions, abstracted: how
the index of each category is built from its loaded rows. -/
structure FuseBuilders where
  bi : List InstructorRow → FuseIndex InstructorRow
  bd : List DomainRow → FuseIndex DomainRow
  bc : List ClassRow → FuseIndex ClassRow
  bt : List TopicRow → FuseIndex TopicRow

/-- `initAllCaches()`: the four loads run sequentially (instructors,
domains, classes, topics) inside a single try/catch, assigning each
cache as its query returns; the first failing query aborts the rest of
the block and the catch swallows the error, so caches assigned before
the failure keep their index and the remaining ones stay `null`. -/
def initAllCaches (B : FuseBuilders) (L : LoadResults) : Caches :=
  match L.instructors with
  | Except.error _ => emptyCaches
  | Except.ok ri =>
    let c1 : Caches := { emptyCaches with instructors := some (B.bi ri) }
    match L.domains with
    | Except.error _ => c1
    | Except.ok rd =>
      let c2 : Caches := { c1 with domains := some (B.bd rd) }
      match L.classes with
      | Except.error _ => c2
      | Except.ok rc =>
        let c3 : Caches := { c2 with classes := some (B.bc rc) }
        match L.topics with
        | Except.error _ => c3
        | Except.ok rt => { c3 with topics := some (B.bt rt) }

/-- Whether the cache of a category is loaded (non-`null`). -/
def categoryLoaded (caches : Caches) : Category → Bool
  | Category.instructor => caches.instructors.isSome
  | Category.domain => caches.domains.isSome
  | Category.class_ => caches.classes.isSome
  | Category.topic => caches.topics.isSome

/-- Whether the value of a candidate is a canonical string of the loaded
snapshot of its own category: the field `resolveTerm` extracts
(`full_name`, `domain_name`, `class_name`, `topic_code`) of some
document of the index of that category. -/
def valueCanonical (caches : Caches) (m : MatchCandidate) : Prop :=
  match m.category with
  | Category.instructor =>
      ∃ f, caches.instructors = some f ∧ ∃ row ∈ f.docs, m.value = row.full_name
  | Category.domain =>
      ∃ f, caches.domains = some f ∧ ∃ row ∈ f.docs, m.value = row.domain_name
  | Category.class_ =>
      ∃ f, caches.classes = some f ∧ ∃ row ∈ f.docs, m.value = row.class_name
  | Category.topic =>
      ∃ f, caches.topics = some f ∧ ∃ row ∈ f.docs, m.value = row.topic_code

example : qualityFloor = 2 / 5 := by norm_num [qualityFloor]

example : ambiguityMargin = 1 / 20 := by norm_num [ambiguityMargin]

/-! Helper lemmas about the resolver pipeline. -/

theorem collect_mem {α : Type} {fuse : Option (FuseIndex α)} {cat : Category}
    {field : α → String} {term : String} {m : MatchCandidate}
    (h : m ∈ collect fuse cat field term) :
    ∃ f, fuse = some f ∧ ∃ p ∈ f.searchFn term,
      m = ⟨cat, field p.1, p.2⟩ := by
  cases fuse with
  | none => exact absurd h (List.not_mem_nil m)
  | some f =>
      rcases List.mem_map.mp h with ⟨p, hp, rfl⟩
      exact ⟨f, rfl, p, hp, rfl⟩

theorem mem_survivingMatches {caches : Caches} {term : String} {m : MatchCandidate}
    (h : m ∈ survivingMatches caches term) :
    m ∈ allMatchesList caches term ∧ m.score < qualityFloor := by
  have h2 := List.mem_filter.mp h
  exact ⟨h2.1, of_decide_eq_true h2.2⟩

theorem mem_sortedSurvivors_iff {caches : Caches} {term : String} {m : MatchCandidate} :
    m ∈ sortedSurvivors caches term ↔ m ∈ survivingMatches caches term :=
  List.mem_insertionSort _

theorem topCandidates_subset (caches : Caches) (term : String) :
    topCandidates caches term ⊆ sortedSurvivors caches term := by
  intro m h
  cases hs : sortedSurvivors caches term with
  | nil => simp [topCandidates, hs] at h
  | cons b tl =>
      simp only [topCandidates, hs] at h
      exact List.mem_of_mem_filter h

theorem resolveTerm_subset_topCandidates (caches : Caches) (term : String) :
    resolveTerm caches term ⊆ topCandidates caches term :=
  (List.take_sublist maxCandidates (topCandidates caches term)).subset

theorem mem_resolveTerm_allMatches {caches : Caches} {term : String} {m : MatchCandidate}
    (h : m ∈ resolveTerm caches term) :
    m ∈ allMatchesList caches term ∧ m.score < qualityFloor :=
  mem_survivingMatches (mem_sortedSurvivors_iff.mp
    (topCandidates_subset caches term (resolveTerm_subset_topCandidates caches term h)))

theorem sorted_sortedSurvivors (caches : Caches) (term : String) :
    List.Sorted scoreLE (sortedSurvivors caches term) :=
  List.sorted_insertionSort scoreLE (survivingMatches caches term)

theorem sorted_topCandidates (caches : Caches) (term : String) :
    List.Sorted scoreLE (topCandidates caches term) := by
  cases hs : sortedSurvivors caches term with
  | nil => simp [topCandidates, hs]
  | cons b tl =>
      simp only [topCandidates, hs]
      exact List.Pairwise.filter _ (hs ▸ sorted_sortedSurvivors caches term)

theorem sorted_resolveTerm (caches : Caches) (term : String) :
    List.Sorted scoreLE (resolveTerm caches term) :=
  (sorted_topCandidates caches term).sublist
    (List.take_sublist maxCandidates (topCandidates caches term))

/-! Stability of the sort: the sublist of matches carrying any one score
is preserved by `orderedInsert` and `insertionSort`. -/

theorem filter_score_orderedInsert (q : ℚ) (x : MatchCandidate) (l : List MatchCandidate) :
    (List.orderedInsert scoreLE x l).filter (fun m => decide (m.score = q)) =
      if x.score = q then x :: l.filter (fun m => decide (m.score = q))
      else l.filter (fun m => decide (m.score = q)) := by
  induction l with
  | nil => by_cases hx : x.score = q <;> simp [List.orderedInsert, hx]
  | cons b t ih =>
      by_cases hle : scoreLE x b
      · rw [List.orderedInsert, if_pos hle]
        by_cases hx : x.score = q <;> by_cases hb : b.score = q <;>
          simp [List.filter_cons, hx, hb]
      · rw [List.orderedInsert, if_neg hle]
        have hbx : b.score < x.score := lt_of_not_le hle
        by_cases hx : x.score = q
        · have hb : ¬ b.score = q := by rw [← hx]; exact ne_of_lt hbx
          simp [List.filter_cons, hb, ih, hx]
        · by_cases hb : b.score = q <;> simp [List.filter_cons, hb, ih, hx]

theorem filter_score_insertionSort (q : ℚ) (l : List MatchCandidate) :
    (List.insertionSort scoreLE l).filter (fun m => decide (m.score = q)) =
      l.filter (fun m => decide (m.score = q)) := by
  induction l with
  | nil => rfl
  | cons x t ih =>
      rw [List.insertionSort, filter_score_orderedInsert, ih]
      by_cases hx : x.score = q <;> simp [List.filter_cons, hx]

/-- Filtering by a score-determined predicate commutes with selecting one
score value: the score-`q` sublist of the filtered list is the whole
score-`q` sublist when `q` passes the predicate and empty otherwise. -/
theorem filter_score_eq_filter (f : ℚ → Bool) (q : ℚ) (l : List MatchCandidate) :
    (l.filter (fun m => f m.score)).filter (fun m => decide (m.score = q)) =
      if f q then l.filter (fun m => decide (m.score = q)) else [] := by
  induction l with
  | nil => by_cases hf : f q <;> simp [hf]
  | cons x t ih =>
      by_cases hx : x.score = q
      · by_cases hf : f q <;> simp [List.filter_cons, hx, hf, ih]
      · by_cases hfx : f x.score <;> by_cases hf : f q <;>
          simp [List.filter_cons, hx, hfx, hf, ih]

theorem exists_append_trans {α : Type} {a b c : List α}
    (h1 : ∃ r, a ++ r = b) (h2 : ∃ r, b ++ r = c) : ∃ r, a ++ r = c := by
  rcases h1 with ⟨r1, hr1⟩
  rcases h2 with ⟨r2, hr2⟩
  exact ⟨r1 ++ r2, by rw [← List.append_assoc, hr1, hr2]⟩

/-! Concrete cache states used to instantiate theorems with hypotheses. -/

/-- Canonical domain row used in concrete examples. -/
def backendRow : DomainRow := ⟨"Backend"⟩

/-- A loaded domain index whose search returns one good match (score
0.1) for every term, blank terms included. -/
def domainIdx : FuseIndex DomainRow where
  docs := [backendRow]
  searchFn := fun _ => [(backendRow, 1/10)]
  search_mem := by
    intro t p hp
    rw [List.mem_singleton] at hp
    subst hp
    exact List.mem_singleton.mpr rfl

/-- Caches warmed with only the domain index. -/
def cachesB : Caches := ⟨none, some domainIdx, none, none⟩

/-- Canonical instructor row used in concrete examples. -/
def robertRow : InstructorRow := ⟨"Robert", "Smith", "Robert Smith"⟩

/-- A loaded instructor index whose search returns one good match. -/
def instrIdx : FuseIndex InstructorRow where
  docs := [robertRow]
  searchFn := fun _ => [(robertRow, 1/10)]
  search_mem := by
    intro t p hp
    rw [List.mem_singleton] at hp
    subst hp
    exact List.mem_singleton.mpr rfl

/-- Caches warmed with only the instructor index. -/
def cachesI : Caches := ⟨some instrIdx, none, none, none⟩

/-- Six domain rows producing a six-way tie at score 0.1. -/
def rows6 : List DomainRow := [⟨"V1"⟩, ⟨"V2"⟩, ⟨"V3"⟩, ⟨"V4"⟩, ⟨"V5"⟩, ⟨"V6"⟩]

/-- A loaded domain index returning all six rows at score 0.1. -/
def idx6 : FuseIndex DomainRow where
  docs := rows6
  searchFn := fun _ => rows6.map (fun r => (r, 1/10))
  search_mem := by
    intro t p hp
    rcases List.mem_map.mp hp with ⟨r, hr, rfl⟩
    exact hr

/-- Caches warmed with only the six-way-tie domain index. -/
def caches6 : Caches := ⟨none, some idx6, none, none⟩

/-- Claim C2: every candidate retained by `resolveTerm` scores strictly below
the 0.4 quality floor, and if no raw match of any category scores below
the floor then the result is `Unresolved` (the empty list). -/
theorem resolveTerm_quality_floor (caches : Caches) (term : String) :
    (∀ m ∈ resolveTerm caches term, m.score < qualityFloor) ∧
    ((∀ m ∈ allMatchesList caches term, ¬ m.score < qualityFloor) →
      resolveTerm caches term = []) := by
  constructor
  · intro m hm
    exact (mem_resolveTerm_allMatches hm).2
  · intro h
    have hs : survivingMatches caches term = [] := by
      refine List.filter_eq_nil_iff.mpr ?_
      intro m hm
      simpa using h m hm
    have hss : sortedSurvivors caches term = [] := by
      rw [sortedSurvivors, hs]
      rfl
    simp [resolveTerm, topCandidates, hss]

/-- Witness for C2: the 0.1-scoring candidate retained for a loaded
domain cache is below the floor, and a term with no matches anywhere
resolves to the empty result. -/
theorem resolveTerm_quality_floor_wit :
    (⟨Category.domain, "Backend", 1/10⟩ : MatchCandidate).score < qualityFloor ∧
    resolveTerm emptyCaches "Zzyzxq" = [] :=
  ⟨(resolveTerm_quality_floor cachesB "Robert").1 _ (by with_unfolding_all decide),
   (resolveTerm_quality_floor emptyCaches "Zzyzxq").2
     (by intro m hm; simp [allMatchesList, collect, emptyCaches] at hm)⟩

/-- Claim C3: the resolution result never carries more than 5 candidates, it
is sorted ascending by score, and it is the initial segment of the
ambiguity set, so the truncation to 5 preserves the sorted order. -/
theorem resolveTerm_cap_sorted (caches : Caches) (term : String) :
    (resolveTerm caches term).length ≤ maxCandidates ∧
    List.Sorted scoreLE (resolveTerm caches term) ∧
    resolveTerm caches term ++ (topCandidates caches term).drop maxCandidates =
      topCandidates caches term := by
  refine ⟨?_, sorted_resolveTerm caches term, ?_⟩
  · simp [resolveTerm]
  · exact List.take_append_drop maxCandidates (topCandidates caches term)

/-- Claim C9: `resolveTerm` is total under incomplete warm-up. With no index
loaded every term resolves to the empty result, and in general every
returned candidate stems from a category whose cache is loaded, so
absent categories contribute no matches and no failure is raised. -/
theorem resolveTerm_warmup_race :
    (∀ term, resolveTerm emptyCaches term = []) ∧
    ∀ (caches : Caches) (term : String),
      (resolveTerm caches term).all (fun m => categoryLoaded caches m.category) = true := by
  constructor
  · intro term
    rfl
  · intro caches term
    rw [List.all_eq_true]
    intro m hm
    have hall : m ∈ allMatchesList caches term := (mem_resolveTerm_allMatches hm).1
    rw [allMatchesList] at hall
    rcases List.mem_append.mp hall with hall | htop
    rcases List.mem_append.mp hall with hall | hcls
    rcases List.mem_append.mp hall with hinstr | hdom
    · rcases collect_mem hinstr with ⟨f, hf, p, hp, rfl⟩
      simp [categoryLoaded, hf]
    · rcases collect_mem hdom with ⟨f, hf, p, hp, rfl⟩
      simp [categoryLoaded, hf]
    · rcases collect_mem hcls with ⟨f, hf, p, hp, rfl⟩
      simp [categoryLoaded, hf]
    · rcases collect_mem htop with ⟨f, hf, p, hp, rfl⟩
      simp [categoryLoaded, hf]

/-- Commutation of the quality-floor filter with selecting one score. -/
theorem filter_floor_comm (q : ℚ) (l : List MatchCandidate) :
    (l.filter (fun m => decide (m.score < qualityFloor))).filter
        (fun m => decide (m.score = q)) =
      if q < qualityFloor then l.filter (fun m => decide (m.score = q)) else [] := by
  have h := filter_score_eq_filter (fun s => decide (s < qualityFloor)) q l
  simpa using h

/-- Commutation of the ambiguity-threshold filter with selecting one
score. -/
theorem filter_thr_comm (thr q : ℚ) (l : List MatchCandidate) :
    (l.filter (fun m => decide (m.score ≤ thr))).filter
        (fun m => decide (m.score = q)) =
      if q ≤ thr then l.filter (fun m => decide (m.score = q)) else [] := by
  have h := filter_score_eq_filter (fun s => decide (s ≤ thr)) q l
  simpa using h

/-- Claim C4: the result of `resolveTerm` is sorted ascending by score, and
the sort is stable: for every score value `q`, the candidates of score
`q` in the result appear as an initial segment of the candidates of
score `q` in the raw discovery list (categories queried in order
instructor, domain, class, topic; within a category, index order). -/
theorem resolveTerm_sorted_stable (caches : Caches) (term : String) :
    List.Sorted scoreLE (resolveTerm caches term) ∧
    ∀ q : ℚ, ∃ rest,
      (resolveTerm caches term).filter (fun m => decide (m.score = q)) ++ rest =
        (allMatchesList caches term).filter (fun m => decide (m.score = q)) := by
  refine ⟨sorted_resolveTerm caches term, fun q => ?_⟩
  have hA : ∃ r, (resolveTerm caches term).filter (fun m => decide (m.score = q)) ++ r =
      (topCandidates caches term).filter (fun m => decide (m.score = q)) := by
    refine ⟨((topCandidates caches term).drop maxCandidates).filter
      (fun m => decide (m.score = q)), ?_⟩
    rw [resolveTerm, ← List.filter_append, List.take_append_drop]
  have hB : ∃ r, (topCandidates caches term).filter (fun m => decide (m.score = q)) ++ r =
      (sortedSurvivors caches term).filter (fun m => decide (m.score = q)) := by
    cases hs : sortedSurvivors caches term with
    | nil => exact ⟨[], by simp [topCandidates, hs]⟩
    | cons b tl =>
        by_cases hq : q ≤ b.score + ambiguityMargin
        · refine ⟨[], ?_⟩
          simp only [topCandidates, hs, List.append_nil]
          rw [filter_thr_comm, if_pos hq]
        · refine ⟨(b :: tl).filter (fun m => decide (m.score = q)), ?_⟩
          simp only [topCandidates, hs]
          rw [filter_thr_comm, if_neg hq, List.nil_append]
  have hC : ∃ r, (sortedSurvivors caches term).filter (fun m => decide (m.score = q)) ++ r =
      (allMatchesList caches term).filter (fun m => decide (m.score = q)) := by
    rw [sortedSurvivors, filter_score_insertionSort, survivingMatches, filter_floor_comm]
    by_cases hq : q < qualityFloor
    · exact ⟨[], by simp [hq]⟩
    · exact ⟨(allMatchesList caches term).filter (fun m => decide (m.score = q)),
        by simp [hq]⟩
  exact exists_append_trans hA (exists_append_trans hB hC)

/-- Claim C1 counterexample: with six surviving matches tied at score 0.1,
the sixth is a surviving match excluded from the result of
`resolveTerm` (the cap of 5 cuts it), yet its score is not strictly
greater than bestScore + 0.05 — refuting the claim that every excluded
surviving match lies beyond the margin. -/
theorem resolveTerm_margin_exclusion_cex :
    (⟨Category.domain, "V6", 1/10⟩ : MatchCandidate) ∈ survivingMatches caches6 "v" ∧
    (⟨Category.domain, "V6", 1/10⟩ : MatchCandidate) ∉ resolveTerm caches6 "v" ∧
    (sortedSurvivors caches6 "v").head? = some ⟨Category.domain, "V1", 1/10⟩ ∧
    ¬ ((1 : ℚ)/10 + ambiguityMargin < 1/10) := by
  with_unfolding_all decide

/-- Claim C1 amended: every candidate retained in the result scores at most
bestScore + 0.05, and every surviving match excluded from the ambiguity
set (the threshold filter, before the cap of 5) scores strictly above
that threshold. Exclusion from the final result can also be caused by
the cap alone. -/
theorem resolveTerm_ambiguity_margin (caches : Caches) (term : String)
    (b : MatchCandidate) (tl : List MatchCandidate)
    (hbest : sortedSurvivors caches term = b :: tl) :
    (∀ m ∈ resolveTerm caches term, m.score ≤ b.score + ambiguityMargin) ∧
    (∀ m ∈ sortedSurvivors caches term, m ∉ topCandidates caches term →
      b.score + ambiguityMargin < m.score) := by
  have htc : topCandidates caches term =
      (b :: tl).filter (fun m => decide (m.score ≤ b.score + ambiguityMargin)) := by
    simp only [topCandidates, hbest]
  constructor
  · intro m hm
    have h1 : m ∈ topCandidates caches term := resolveTerm_subset_topCandidates caches term hm
    rw [htc] at h1
    exact of_decide_eq_true (List.mem_filter.mp h1).2
  · intro m hms hnot
    rw [hbest] at hms
    by_contra hle
    push_neg at hle
    exact hnot (htc ▸ List.mem_filter.mpr ⟨hms, decide_eq_true hle⟩)

/-- Witness for the amended C1 at a concrete cache state with a single
surviving match. -/
theorem resolveTerm_ambiguity_margin_wit :
    (⟨Category.domain, "Backend", 1/10⟩ : MatchCandidate).score ≤
      (⟨Category.domain, "Backend", 1/10⟩ : MatchCandidate).score + ambiguityMargin :=
  (resolveTerm_ambiguity_margin cachesB "Robert" ⟨Category.domain, "Backend", 1/10⟩ []
      (by with_unfolding_all decide)).1 _ (by with_unfolding_all decide)

/-- Build an index with an empty search function, used as a trivial
stand-in for `new Fuse(rows, options)` in warm-up examples. -/
def trivialIndex {α : Type} : List α → FuseIndex α :=
  fun rows => ⟨rows, fun _ => [], fun _ p hp => absurd hp (List.not_mem_nil p)⟩

/-- A concrete set of four index builders. -/
def builders0 : FuseBuilders := ⟨trivialIndex, trivialIndex, trivialIndex, trivialIndex⟩

/-- Warm-up outcome where the first (instructor) query throws and the
three later ones would have succeeded. -/
def loadsInstrFail : LoadResults :=
  ⟨Except.error (), Except.ok [⟨"Backend"⟩], Except.ok [⟨"Algorithms"⟩], Except.ok [⟨"T1"⟩]⟩

/-- Warm-up outcome where the instructor query succeeds and the domain
query throws. -/
def loadsDomainFail : LoadResults :=
  ⟨Except.ok [robertRow], Except.error (), Except.ok [⟨"Algorithms"⟩], Except.ok [⟨"T1"⟩]⟩

/-- Claim C5 counterexample: when the instructor load fails, the domain,
class and topic caches are left `null` as well even though their own
loads would have succeeded — the failure is not isolated to the failing
category, refuting "the other categories are unaffected". -/
theorem initAllCaches_isolation_cex :
    loadsInstrFail.domains = Except.ok [⟨"Backend"⟩] ∧
    (initAllCaches builders0 loadsInstrFail).domains = none ∧
    (initAllCaches builders0 loadsInstrFail).classes = none ∧
    (initAllCaches builders0 loadsInstrFail).topics = none :=
  ⟨rfl, rfl, rfl, rfl⟩

/-- Claim C5 amended: `initAllCaches` never raises (it returns a cache state
in every case); a failing category load leaves the index of that
category and of every later category `null`, while categories loaded before
the failure keep their index; and resolving against the all-`null`
state yields no matches. -/
theorem initAllCaches_sequential (B : FuseBuilders) (L : LoadResults) :
    (L.instructors = Except.error () → initAllCaches B L = emptyCaches) ∧
    (∀ ri, L.instructors = Except.ok ri → L.domains = Except.error () →
      initAllCaches B L = ⟨some (B.bi ri), none, none, none⟩) ∧
    (∀ ri rd, L.instructors = Except.ok ri → L.domains = Except.ok rd →
      L.classes = Except.error () →
      initAllCaches B L = ⟨some (B.bi ri), some (B.bd rd), none, none⟩) ∧
    (∀ ri rd rc, L.instructors = Except.ok ri → L.domains = Except.ok rd →
      L.classes = Except.ok rc → L.topics = Except.error () →
      initAllCaches B L = ⟨some (B.bi ri), some (B.bd rd), some (B.bc rc), none⟩) ∧
    (∀ ri rd rc rt, L.instructors = Except.ok ri → L.domains = Except.ok rd →
      L.classes = Except.ok rc → L.topics = Except.ok rt →
      initAllCaches B L =
        ⟨some (B.bi ri), some (B.bd rd), some (B.bc rc), some (B.bt rt)⟩) ∧
    (∀ term, resolveTerm emptyCaches term = []) := by
  refine ⟨?_, ?_, ?_, ?_, ?_, fun _ => rfl⟩
  · intro h
    simp [initAllCaches, h]
  · intro ri h1 h2
    simp [initAllCaches, h1, h2, emptyCaches]
  · intro ri rd h1 h2 h3
    simp [initAllCaches, h1, h2, h3, emptyCaches]
  · intro ri rd rc h1 h2 h3 h4
    simp [initAllCaches, h1, h2, h3, h4, emptyCaches]
  · intro ri rd rc rt h1 h2 h3 h4
    simp [initAllCaches, h1, h2, h3, h4, emptyCaches]

/-- Witness for the amended C5: a domain-load failure keeps the already
loaded instructor index and leaves the rest `null`. -/
theorem initAllCaches_sequential_wit :
    initAllCaches builders0 loadsDomainFail =
      ⟨some (builders0.bi [robertRow]), none, none, none⟩ :=
  (initAllCaches_sequential builders0 loadsDomainFail).2.1 [robertRow] rfl rfl

/-- Claim C6 counterexample: `resolveTerm` has no blank-term guard. The empty
term is passed to every loaded index like any other term, so with a
loaded index whose search returns a sub-floor match for it the result
is not `Unresolved`. -/
theorem resolveTerm_blank_cex :
    ("" : String).data.all Char.isWhitespace = true ∧
    resolveTerm cachesB "" = [⟨Category.domain, "Backend", 1/10⟩] ∧
    ([⟨Category.domain, "Backend", 1/10⟩] : List MatchCandidate) ≠ [] := by
  with_unfolding_all decide

/-- Claim C6 amended: blank terms are not special-cased; a blank (empty or
all-whitespace) term is resolved by querying each loaded index like any
other term, and the result is `Unresolved` exactly when no loaded index
yields a match below the 0.4 floor for it. -/
theorem resolveTerm_blank_no_guard (caches : Caches) (term : String)
    (hblank : term.data.all Char.isWhitespace = true) :
    (resolveTerm caches term = [] ↔ survivingMatches caches term = []) := by
  constructor
  · intro h
    by_contra hne
    have hperm := List.perm_insertionSort scoreLE (survivingMatches caches term)
    cases hs : sortedSurvivors caches term with
    | nil =>
        rw [sortedSurvivors] at hs
        exact hne (List.Perm.eq_nil (hs ▸ hperm).symm)
    | cons b tl =>
        have hb : decide (b.score ≤ b.score + ambiguityMargin) = true :=
          decide_eq_true (le_add_of_nonneg_right (by norm_num [ambiguityMargin]))
        have htc : topCandidates caches term =
            b :: tl.filter (fun m => decide (m.score ≤ b.score + ambiguityMargin)) := by
          simp only [topCandidates, hs]
          rw [List.filter_cons, if_pos (by simpa using hb)]
        rw [resolveTerm, htc] at h
        simp [maxCandidates] at h
  · intro h
    have hss : sortedSurvivors caches term = [] := by
      rw [sortedSurvivors, h]
      rfl
    simp [resolveTerm, topCandidates, hss]

/-- Witness for the amended C6: with no index loaded, the blank term
resolves to the empty result. -/
theorem resolveTerm_blank_no_guard_wit : resolveTerm emptyCaches " " = [] :=
  (resolveTerm_blank_no_guard emptyCaches " " (by decide)).mpr rfl

/-- Claim C7: an `Unresolved` term contributes no directive (dropping it from
the front of the input leaves the output unchanged), and the example
sequence `[("xyz", Unresolved), ("Backend", SinglyResolved(Domain
"Backend"))]` yields exactly the one domain-equality directive for
"Backend". -/
theorem buildContext_unresolved :
    (∀ (t : String) (l : List (String × List MatchCandidate)),
      buildContext ((t, ([] : List MatchCandidate)) :: l) = buildContext l) ∧
    buildContext [("xyz", []), ("Backend", [⟨Category.domain, "Backend", 1/10⟩])] =
      ["User means Domain \x27Backend\x27. Filter by dd.domain_name = \x27Backend\x27"] := by
  refine ⟨fun t l => ?_, ?_⟩
  · simp [buildContext, emitForTerm]
  · rfl

/-- Claim C8: an ambiguous term (more than one candidate) contributes exactly
one directive at its position in the input order; the directive embeds
the joined quoted values of ALL candidates (flagged ambiguous and asked
to match ANY of them), and the quoted value of every candidate occurs in
that joined list — the set is never narrowed. -/
theorem buildContext_ambiguous_all (t : String) (cs : List MatchCandidate)
    (l : List (String × List MatchCandidate)) (h : 1 < cs.length) :
    buildContext ((t, cs) :: l) = ambiguousDirective t cs :: buildContext l ∧
    ambiguousDirective t cs =
      "The term \x27" ++ t ++ "\x27 is ambiguous and matches multiple entities: " ++
        String.intercalate ", " (quotedValues cs) ++ ". " ++
        "Filter by checking if the name/title is IN (" ++
        String.intercalate ", " (quotedValues cs) ++ ") OR matches the partial term." ∧
    ∀ c ∈ cs, ("\x27" ++ c.value ++ "\x27") ∈ quotedValues cs := by
  rcases cs with _ | ⟨a, _ | ⟨b, r⟩⟩
  · simp at h
  · simp at h
  · exact ⟨rfl, rfl, fun c hc => List.mem_map_of_mem _ hc⟩

/-- The two-instructor tie used to instantiate C8. -/
def ambPair : List MatchCandidate :=
  [⟨Category.instructor, "Robert Smith", 1/10⟩,
   ⟨Category.instructor, "Robert Jones", 11/100⟩]

/-- Witness for C8 at the concrete two-candidate ambiguity. -/
theorem buildContext_ambiguous_all_wit :
    buildContext [("Robert", ambPair)] =
      ambiguousDirective "Robert" ambPair :: buildContext [] :=
  (buildContext_ambiguous_all "Robert" ambPair [] (by decide)).1

/-- Claim C10: every candidate returned by `resolveTerm` carries as value the
canonical field of some document of the loaded index of its category:
`full_name` for instructors (whatever field the fuzzy match hit),
`domain_name` for domains, `class_name` for classes, `topic_code` for
topics. -/
theorem resolveTerm_value_canonical (caches : Caches) (term : String)
    (m : MatchCandidate) (hm : m ∈ resolveTerm caches term) :
    valueCanonical caches m := by
  have hall : m ∈ allMatchesList caches term := (mem_resolveTerm_allMatches hm).1
  rw [allMatchesList] at hall
  rcases List.mem_append.mp hall with hall | htop
  rcases List.mem_append.mp hall with hall | hcls
  rcases List.mem_append.mp hall with hinstr | hdom
  · rcases collect_mem hinstr with ⟨f, hf, p, hp, rfl⟩
    exact ⟨f, hf, p.1, f.search_mem term p hp, rfl⟩
  · rcases collect_mem hdom with ⟨f, hf, p, hp, rfl⟩
    exact ⟨f, hf, p.1, f.search_mem term p hp, rfl⟩
  · rcases collect_mem hcls with ⟨f, hf, p, hp, rfl⟩
    exact ⟨f, hf, p.1, f.search_mem term p hp, rfl⟩
  · rcases collect_mem htop with ⟨f, hf, p, hp, rfl⟩
    exact ⟨f, hf, p.1, f.search_mem term p hp, rfl⟩

/-- Witness for C10: the instructor candidate produced by the concrete
instructor cache carries the `full_name` of the indexed row. -/
theorem resolveTerm_value_canonical_wit :
    valueCanonical cachesI ⟨Category.instructor, "Robert Smith", 1/10⟩ :=
  resolveTerm_value_canonical cachesI "Robert" _ (by with_unfolding_all decide)
